import Mathlib

/-
  Shallow embedding of the epub text-extraction core of the
  `dataset-downloader` repository (`cmd/smashwords-downloader/epubParse.go`;
  the same component is duplicated inside the main source file).

  Modelling conventions:
  * Go `int` fields of the cell buffer (width, lmargin, col, row) are
    modelled as `Nat`: in every state the program can construct they are
    non-negative (they start at 0/80 and are only incremented or reset to
    the non-negative left margin).  The single signed subtraction the code
    performs, `c.width - c.col` in the wrap test, is modelled with `Int`
    casts so that Go's signed comparison is preserved exactly.
  * The html tokenizer is an external collaborator; the walk is modelled
    over the list of tokens it produces.  A Go tokenizer keeps returning an
    end-of-stream error token once the input is exhausted, so an exhausted
    token list is treated as end-of-stream.
  * Go's panic on slice underflow (`tagStack[:len-1]` on an empty slice)
    is modelled by the distinguished outcome `Outcome.panicked`: the Go
    program crashes there and returns nothing to its caller.
-/

namespace EpubParse

/-- termbox `Attribute` (a uint16 bitmask; all values used stay far below
2^16, so `Nat` with `Nat.lor` models the Go `|=` exactly). -/
abbrev Attribute := Nat

def colorDefault : Attribute := 0

def colorRed : Attribute := 2

def colorYellow : Attribute := 4

def colorBlue : Attribute := 5

def colorMagenta : Attribute := 6

def colorCyan : Attribute := 7

/-- termbox `AttrBold = 1 << 9`. -/
def attrBold : Attribute := 512

/-- termbox `Cell`. -/
structure Cell where
  ch : Char
  fg : Attribute
  bg : Attribute
  deriving DecidableEq

/-- Go zero value `termbox.Cell{}` used when the cell slice grows. -/
def defaultCell : Cell := { ch := Char.ofNat 0, fg := 0, bg := 0 }

/-- The html atoms this component inspects; every other atom is `other`. -/
inductive Atom where
  | style | img | br | h1 | h2 | h3 | h4 | h5 | h6 | title | div | tr | p | hr
  | b | strong | em | i | alt | src
  | other (name : String)
  deriving DecidableEq

/-- `atom.Lookup` restricted to the attribute keys the code switches on. -/
def lookupAtom (key : String) : Atom :=
  if key = "alt" then Atom.alt
  else if key = "src" then Atom.src
  else Atom.other key

/-- `cellbuf` / `Cellbuf` from the source. -/
structure Cellbuf where
  cells : List Cell
  width : Nat
  lmargin : Nat
  col : Nat
  row : Nat
  space : Bool
  fg : Attribute
  bg : Attribute
  deriving DecidableEq

/-- The growth loop of `SetCell`, with an explicit iteration bound: each
pass appends 1024 cells, so `idx + 1` passes always cover index `idx`
(`growCellsFuel_spec` below); with that bound the function computes the
same result as the unbounded Go loop. -/
def growCellsFuel : Nat → List Cell → Nat → List Cell
  | 0, cells, _ => cells
  | n + 1, cells, idx =>
    if idx < cells.length then cells
    else growCellsFuel n (cells ++ List.replicate 1024 defaultCell) idx

/-- `for y*c.width+x >= len(c.cells) { c.cells = append(c.cells, make([]termbox.Cell, 1024)...) }` -/
def growCells (cells : List Cell) (idx : Nat) : List Cell :=
  growCellsFuel (idx + 1) cells idx

/-- `SetCell`: grow in steps of 1024 when out of space, then write the cell
at flat index `y*width + x`. -/
def Cellbuf.setCell (c : Cellbuf) (x y : Nat) (ch : Char) (fg bg : Attribute) : Cellbuf :=
  { c with cells :=
      (growCells c.cells (y * c.width + x)).set (y * c.width + x) { ch := ch, fg := fg, bg := bg } }

/-- `unicode.IsSpace` on the code points `bufio.ScanWords` can meet in this
corpus: ASCII whitespace plus NEL and NBSP (the remaining rare Unicode
`Zs` code points are omitted; no claim depends on them). -/
def isSpaceRune (c : Char) : Bool :=
  c = ' ' || c = '\t' || c = '\n' || c = '\x0b' || c = '\x0c' || c = '\r' ||
  c = '\u0085' || c = ' '

/-- `bufio.ScanWords`: maximal runs of non-space runes, surrounding
whitespace discarded.  `acc` holds the current word reversed. -/
def splitWordsAux : List Char → List Char → List (List Char)
  | [], acc => if acc.isEmpty then [] else [acc.reverse]
  | ch :: rest, acc =>
    if isSpaceRune ch then
      if acc.isEmpty then splitWordsAux rest []
      else acc.reverse :: splitWordsAux rest []
    else splitWordsAux rest (ch :: acc)

def splitWords (s : String) : List (List Char) :=
  splitWordsAux s.toList []

/-- The inner loop of `AppendText`:
`for _, r := range word { c.SetCell(c.col, c.row, r, c.fg, c.bg); c.col++ }`.
The second component is a ghost trace recording the `(x, y)` position of
every `SetCell` call, in call order; the Go code performs exactly the state
mutation of the first component. -/
def placeChars : Cellbuf → List Char → Cellbuf × List (Nat × Nat)
  | c, [] => (c, [])
  | c, r :: rest =>
    let c1 := { c.setCell c.col c.row r c.fg c.bg with col := c.col + 1 }
    let res := placeChars c1 rest
    (res.1, (c.col, c.row) :: res.2)

/-- One iteration of the word loop of `AppendText`: the pending-space
adjustment, the greedy wrap test (`len(word) > c.width-c.col` over Go
ints), then character placement. -/
def stepWord (c : Cellbuf) (w : List Char) : Cellbuf × List (Nat × Nat) :=
  let c1 := if c.col ≠ c.lmargin ∧ c.space then { c with col := c.col + 1 } else c
  let c2 :=
    if (w.length : Int) > (c1.width : Int) - (c1.col : Int) then
      { c1 with row := c1.row + 1, col := c1.lmargin }
    else c1
  placeChars c2 w

/-- The scanner loop of `AppendText` over the word list. -/
def appendTextGo : Cellbuf → List (List Char) → Cellbuf × List (Nat × Nat)
  | c, [] => (c, [])
  | c, w :: ws =>
    let r1 := stepWord c w
    let r2 := appendTextGo r1.1 ws
    (r2.1, r1.2 ++ r2.2)

/-- `AppendText` with the ghost `SetCell` trace: empty-string early return,
margin snap (`if c.col < c.lmargin { c.col = c.lmargin }`), then the word
loop. -/
def appendTextTr (c : Cellbuf) (s : String) : Cellbuf × List (Nat × Nat) :=
  if s.isEmpty then (c, [])
  else
    let c1 := if c.col < c.lmargin then { c with col := c.lmargin } else c
    appendTextGo c1 (splitWords s)

/-- `AppendText` proper (the Go method mutates only the cell buffer). -/
def Cellbuf.appendText (c : Cellbuf) (s : String) : Cellbuf :=
  (appendTextTr c s).1

/-- The attribute computed by `Style`'s loop over the tag stack, starting
from `termbox.ColorDefault` and OR-ing per tag. -/
def styleFg (tags : List Atom) : Attribute :=
  List.foldl
    (fun fg tag =>
      match tag with
      | Atom.b | Atom.strong | Atom.em => fg.lor attrBold
      | Atom.i => fg.lor colorYellow
      | Atom.title => fg.lor colorRed
      | Atom.h1 => fg.lor colorMagenta
      | Atom.h2 => fg.lor colorBlue
      | Atom.h3 | Atom.h4 | Atom.h5 | Atom.h6 => fg.lor colorCyan
      | _ => fg)
    colorDefault tags

/-- `Style`: recompute the foreground attribute from the tag stack and
store it. -/
def Cellbuf.style (c : Cellbuf) (tags : List Atom) : Cellbuf :=
  { c with fg := styleFg tags }

/-- `epub.Item` (only the `HREF` field is ever read). -/
structure Item where
  href : String
  deriving DecidableEq

/-- `html.Attribute` (namespace field dropped; never read). -/
structure TagAttr where
  key : String
  val : String
  deriving DecidableEq

/-- The tokenizer error causes the walk distinguishes: `io.EOF` versus any
other error. -/
inductive TokErr where
  | eof
  | other (msg : String)
  deriving DecidableEq

/-- The html token kinds the walk dispatches on. -/
inductive Tok where
  | error (e : TokErr)
  | startTag (dataAtom : Atom) (attrs : List TagAttr)
  | selfClosing (dataAtom : Atom) (attrs : List TagAttr)
  | text (data : String)
  | endTag (dataAtom : Atom)
  deriving DecidableEq

/-- `Parser` state (the tokenizer is externalised into the token list). -/
structure Parser where
  tagStack : List Atom
  doc : Cellbuf
  items : List Item
  sb : String
  deriving DecidableEq

/-- How `Parse` returns: `ok` models `return nil` (end of stream),
`errored e` models `return err`, and `panicked` models the Go runtime
panic on tag-stack slice underflow (the program crashes; the paired state
is the state at the moment of the fault and is never returned to the Go
caller). -/
inductive Outcome where
  | ok
  | errored (e : TokErr)
  | panicked
  deriving DecidableEq

/-- `HandleText`: skip text under a `style` top-of-stack
(`len(p.tagStack) > 0 && p.tagStack[len(p.tagStack)-1] == atom.Style`),
otherwise restyle, lay the text out, and append it verbatim to the string
builder. -/
def handleText (p : Parser) (data : String) : Parser :=
  if 0 < p.tagStack.length ∧ p.tagStack.getLast? = some Atom.style then p
  else
    { p with
      doc := (p.doc.style p.tagStack).appendText data,
      sb := p.sb ++ data }

/-- One step of `HandleStartTag`'s loop over an `img` token's attributes:
an `alt` attribute appends `"Alt text: <value>"` to the layout surface and
then advances the row and resets the column; a `src` attribute scans the
manifest items for a matching HREF and discards the result (the Go loop
body only `break`s), so it leaves the state unchanged. -/
def imgAttrStep (p : Parser) (a : TagAttr) : Parser :=
  match lookupAtom a.key with
  | Atom.alt =>
    let d := Cellbuf.appendText p.doc ("Alt text: " ++ a.val)
    { p with doc := { d with row := d.row + 1, col := d.lmargin } }
  | Atom.src => p
  | _ => p

/-- `HandleStartTag`: the layout-directive table.  The `p` case performs
`col = lmargin; col += 2`, collapsed here to `col := lmargin + 2`. -/
def handleStartTag (p : Parser) (dataAtom : Atom) (attrs : List TagAttr) : Parser :=
  match dataAtom with
  | Atom.img => List.foldl imgAttrStep p attrs
  | Atom.br =>
    { p with doc := { p.doc with row := p.doc.row + 1, col := p.doc.lmargin } }
  | Atom.h1 | Atom.h2 | Atom.h3 | Atom.h4 | Atom.h5 | Atom.h6 | Atom.title
  | Atom.div | Atom.tr =>
    { p with doc := { p.doc with row := p.doc.row + 2, col := p.doc.lmargin } }
  | Atom.p =>
    { p with doc := { p.doc with row := p.doc.row + 2, col := p.doc.lmargin + 2 } }
  | Atom.hr =>
    let d := { p.doc with row := p.doc.row + 1, col := 0 }
    { p with doc := Cellbuf.appendText d (String.mk (List.replicate d.width '-')) }
  | _ => p

/-- `Parse`: dispatch each token; a `StartTagToken` pushes then falls
through to the start-tag handler; an `EndTagToken` executes
`p.tagStack = p.tagStack[:len(p.tagStack)-1]`, which on an empty stack is
a Go slice-underflow panic (`Outcome.panicked`); an `ErrorToken` ends the
walk, successfully iff the cause is `io.EOF`.  An exhausted token list
stands for the tokenizer's perpetual end-of-stream error token. -/
def parseLoop : Parser → List Tok → Outcome × Parser
  | p, [] => (Outcome.ok, p)
  | p, t :: ts =>
    match t with
    | Tok.error e => if e = TokErr.eof then (Outcome.ok, p) else (Outcome.errored e, p)
    | Tok.startTag a attrs =>
      parseLoop (handleStartTag { p with tagStack := p.tagStack ++ [a] } a attrs) ts
    | Tok.selfClosing a attrs => parseLoop (handleStartTag p a attrs) ts
    | Tok.text d => parseLoop (handleText p d) ts
    | Tok.endTag _ =>
      if p.tagStack.isEmpty then (Outcome.panicked, p)
      else parseLoop { p with tagStack := p.tagStack.dropLast } ts

/-- The cell buffer `ParseText` builds: `cellbuf{width: 80}` (all other
fields Go zero values). -/
def initCellbuf : Cellbuf :=
  { cells := [], width := 80, lmargin := 0, col := 0, row := 0,
    space := false, fg := 0, bg := 0 }

/-- The parser state `ParseText` builds before walking. -/
def initParser (items : List Item) (sb : String) : Parser :=
  { tagStack := [], doc := initCellbuf, items := items, sb := sb }

/-- `ParseText`: run the walk and return the accumulated string builder
(for `Outcome.panicked` the Go program crashes and nothing is returned;
the string component here is the ghost state at the fault). -/
def parseText (items : List Item) (sb : String) (toks : List Tok) : Outcome × String :=
  let r := parseLoop (initParser items sb) toks
  (r.1, r.2.sb)

/-! ### Comparison definitions (spec-side), used only to state claims -/

/-- The word step of `AppendText` as it would read with the spec's
pending-space separator rule removed: used to show that rule is dead code
(the `space` flag is never set anywhere in the program). -/
def stepWordNoSep (c : Cellbuf) (w : List Char) : Cellbuf × List (Nat × Nat) :=
  let c2 :=
    if (w.length : Int) > (c.width : Int) - (c.col : Int) then
      { c with row := c.row + 1, col := c.lmargin }
    else c
  placeChars c2 w

/-- The word loop of `AppendText` built on `stepWordNoSep`. -/
def appendTextGoNoSep : Cellbuf → List (List Char) → Cellbuf × List (Nat × Nat)
  | c, [] => (c, [])
  | c, w :: ws =>
    let r1 := stepWordNoSep c w
    let r2 := appendTextGoNoSep r1.1 ws
    (r2.1, r1.2 ++ r2.2)

/-- `AppendText` built on the separator-free word step. -/
def appendTextTrNoSep (c : Cellbuf) (s : String) : Cellbuf × List (Nat × Nat) :=
  if s.isEmpty then (c, [])
  else
    let c1 := if c.col < c.lmargin then { c with col := c.lmargin } else c
    appendTextGoNoSep c1 (splitWords s)

/-- Spec-side description of the Accumulated Text Output: the verbatim
concatenation of the displayable Text tokens' raw content — displayable
meaning the top of the element stack is not `style` — following the stack
exactly as the walk does, and stopping where the walk stops (error token,
or stack underflow).  It never reads the layout surface. -/
def displayedTextConcat : List Atom → List Tok → String
  | _, [] => ""
  | stk, t :: ts =>
    match t with
    | Tok.error _ => ""
    | Tok.startTag a _ => displayedTextConcat (stk ++ [a]) ts
    | Tok.selfClosing _ _ => displayedTextConcat stk ts
    | Tok.text d =>
      (if 0 < stk.length ∧ stk.getLast? = some Atom.style then "" else d) ++
        displayedTextConcat stk ts
    | Tok.endTag _ => if stk.isEmpty then "" else displayedTextConcat stk.dropLast ts

/-! ### Concrete states used by witnesses -/

/-- The token stream the tokenizer yields for the input `<p>Hello world</p>`. -/
def helloTokens : List Tok :=
  [Tok.startTag Atom.p [], Tok.text "Hello world", Tok.endTag Atom.p,
   Tok.error TokErr.eof]

/-- A ten-column cell buffer, otherwise as `ParseText` builds it. -/
def buf10 : Cellbuf := { initCellbuf with width := 10 }

/-- A fifteen-rune word, longer than `buf10`'s width. -/
def word15 : List Char := "abcdefghijklmno".toList

/-- A parser state whose innermost open element is `style`. -/
def styleTopParser : Parser :=
  { tagStack := [Atom.p, Atom.style], doc := initCellbuf, items := [], sb := "before" }

end EpubParse

namespace EpubParse

/-! ### The growth loop of `SetCell` -/

/-- Fuel `idx + 1 - cells.length` (a fortiori `idx + 1`) suffices for the
growth loop: the result covers index `idx` and has grown by whole chunks
of 1024 cells. -/
theorem growCellsFuel_spec :
    ∀ (n : Nat) (cells : List Cell) (idx : Nat),
      idx + 1 - cells.length ≤ n →
      idx < (growCellsFuel n cells idx).length ∧
      ∃ k, (growCellsFuel n cells idx).length = cells.length + 1024 * k := by
  intro n
  induction n with
  | zero =>
    intro cells idx h
    simp only [growCellsFuel]
    exact ⟨by omega, 0, by omega⟩
  | succ n ih =>
    intro cells idx h
    by_cases hlt : idx < cells.length
    · simp only [growCellsFuel, if_pos hlt]
      exact ⟨hlt, 0, by omega⟩
    · have hlen : (cells ++ List.replicate 1024 defaultCell).length = cells.length + 1024 := by
        rw [List.length_append, List.length_replicate]
      obtain ⟨h1, k, h2⟩ :=
        ih (cells ++ List.replicate 1024 defaultCell) idx (by rw [hlen]; omega)
      refine ⟨?_, k + 1, ?_⟩ <;> simp only [growCellsFuel, if_neg hlt]
      · exact h1
      · rw [h2, hlen]; ring

/-- `growCells` covers the requested index and grows by 1024-chunks. -/
theorem growCells_spec (cells : List Cell) (idx : Nat) :
    idx < (growCells cells idx).length ∧
    ∃ k, (growCells cells idx).length = cells.length + 1024 * k :=
  growCellsFuel_spec (idx + 1) cells idx (by omega)

/-- C9: `SetCell` grows the flat cell array by repeated chunks of 1024
cells until the target index `row * width + column` is strictly below the
array length, so the write is always in bounds (the written cell is
readable back at that index) and the growth loop terminates (the fuel
bound `idx + 1` always suffices, `growCellsFuel_spec`); consequently
`AppendText`, which writes only through `SetCell`, is a total function
and never fails. -/
theorem setCell_growth_covers_index :
    ∀ (c : Cellbuf) (x y : Nat) (ch : Char) (fg bg : Attribute),
      y * c.width + x < ((Cellbuf.setCell c x y ch fg bg).cells).length ∧
      (∃ k, ((Cellbuf.setCell c x y ch fg bg).cells).length = c.cells.length + 1024 * k) ∧
      ((Cellbuf.setCell c x y ch fg bg).cells).get? (y * c.width + x) =
        some { ch := ch, fg := fg, bg := bg } := by
  intro c x y ch fg bg
  obtain ⟨h1, k, h2⟩ := growCells_spec c.cells (y * c.width + x)
  refine ⟨?_, ⟨k, ?_⟩, ?_⟩
  · simpa [Cellbuf.setCell] using h1
  · simpa [Cellbuf.setCell] using h2
  · simpa [Cellbuf.setCell] using List.get?_set_eq_of_lt _ h1

/-! ### The walk's termination behavior -/

/-- C4: the walk treats end-of-stream as normal successful termination,
returning the state (hence the accumulated text) with no error; any other
tokenizer error terminates the walk and is surfaced to the caller; an
exhausted token list (the tokenizer's perpetual end-of-stream) is also a
normal termination. -/
theorem parse_eof_success_other_errors_surface :
    (∀ (p : Parser) (ts : List Tok),
      parseLoop p (Tok.error TokErr.eof :: ts) = (Outcome.ok, p)) ∧
    (∀ (p : Parser) (m : String) (ts : List Tok),
      parseLoop p (Tok.error (TokErr.other m) :: ts) = (Outcome.errored (TokErr.other m), p)) ∧
    (∀ p : Parser, parseLoop p [] = (Outcome.ok, p)) := by
  refine ⟨fun p ts => ?_, fun p m ts => ?_, fun p => rfl⟩
  · simp [parseLoop]
  · simp [parseLoop]

/-! ### Stack underflow on an unmatched end tag (C1) -/

/-- C1 amended: when an EndTag token arrives while the element stack is
empty, the walk faults — `p.tagStack[:len(p.tagStack)-1]` is a Go
slice-underflow panic — rather than failing with a StructuralError; the
accumulated text is not returned to the caller. -/
theorem parse_endTag_underflow_panics
    (p : Parser) (a : Atom) (ts : List Tok) (h : p.tagStack = []) :
    parseLoop p (Tok.endTag a :: ts) = (Outcome.panicked, p) := by
  simp [parseLoop, h]

/-- C1 counterexample: on the concrete token stream
`<p>hi</p></p>` — text accumulated, then an end tag with no matching
open tag — the walk panics; it does not fail with a StructuralError and
does not return the accumulated text, contrary to the claim. -/
theorem parse_endTag_underflow_counterexample :
    (parseLoop (initParser [] "")
      [Tok.startTag Atom.p [], Tok.text "hi", Tok.endTag Atom.p, Tok.endTag Atom.p]).1 =
      Outcome.panicked := rfl

/-- Witness for `parse_endTag_underflow_panics` at a concrete input. -/
theorem parse_endTag_underflow_panics_witness :
    (initParser [] "").tagStack = ([] : List Atom) ∧
    parseLoop (initParser [] "") [Tok.endTag Atom.div] = (Outcome.panicked, initParser [] "") :=
  ⟨rfl, parse_endTag_underflow_panics (initParser [] "") Atom.div [] rfl⟩

/-! ### Style resolution (C8) -/

/-- C8: style resolution is a pure function of the element stack — the
resolved attribute is independent of all prior cell-buffer state
(in particular of the previously stored attribute, since it is recomputed
from the default on every call), and `Style` changes nothing but the
stored foreground attribute; and it is additive: for the nesting
`<h1><b>…</b></h1>` the resolved attribute is the bitwise OR of the
heading-1 color and the bold flag, so it includes both. -/
theorem style_pure_and_additive :
    (∀ (c c' : Cellbuf) (tags : List Atom),
      (Cellbuf.style c tags).fg = (Cellbuf.style c' tags).fg) ∧
    (∀ (c : Cellbuf) (tags : List Atom),
      Cellbuf.style c tags = { c with fg := styleFg tags }) ∧
    (∀ c : Cellbuf, (Cellbuf.style c [Atom.h1, Atom.b]).fg = Nat.lor colorMagenta attrBold) :=
  ⟨fun _ _ _ => rfl, fun _ _ => rfl, fun _ => by with_unfolding_all rfl⟩

/-! ### Non-displayable text is discarded (C7) -/

/-- C7: a Text token whose immediately enclosing element (top of the
element stack) is the non-displayable `style` element — the program's
non-displayable set — is discarded silently: the parser state is left
completely unchanged (no layout-surface append, no accumulated-text
append, no other state change). -/
theorem handleText_style_discards
    (p : Parser) (d : String)
    (h1 : 0 < p.tagStack.length) (h2 : p.tagStack.getLast? = some Atom.style) :
    handleText p d = p := by
  simp [handleText, h1, h2]

/-- Witness for `handleText_style_discards` at a concrete state. -/
theorem handleText_style_discards_witness :
    0 < styleTopParser.tagStack.length ∧
    styleTopParser.tagStack.getLast? = some Atom.style ∧
    handleText styleTopParser "ignored" = styleTopParser :=
  ⟨by decide, by decide,
    handleText_style_discards styleTopParser "ignored" (by decide) (by decide)⟩

end EpubParse

namespace EpubParse

/-- The inner character loop: trace positions are consecutive columns on
the current row, and only `col` and `cells` change. -/
theorem placeChars_spec :
    ∀ (w : List Char) (c : Cellbuf),
      (placeChars c w).2 = (List.range' c.col w.length).map (fun x => (x, c.row)) ∧
      (placeChars c w).1.col = c.col + w.length ∧
      (placeChars c w).1.row = c.row ∧
      (placeChars c w).1.lmargin = c.lmargin ∧
      (placeChars c w).1.width = c.width ∧
      (placeChars c w).1.space = c.space := by
  intro w
  induction w with
  | nil => intro c; simp [placeChars, List.range']
  | cons r rest ih =>
    intro c
    obtain ⟨h1, h2, h3, h4, h5, h6⟩ :=
      ih { c.setCell c.col c.row r c.fg c.bg with col := c.col + 1 }
    simp only [placeChars]
    have hr : List.range' c.col (rest.length + 1) =
        c.col :: List.range' (c.col + 1) rest.length := rfl
    refine ⟨?_, ?_, ?_, ?_, ?_, ?_⟩
    · simp only [List.length_cons, hr, List.map_cons]
      rw [h1]
      rfl
    · rw [h2]; simp [Cellbuf.setCell]; omega
    · rw [h3]; rfl
    · rw [h4]; rfl
    · rw [h5]; rfl
    · rw [h6]; rfl


/-- The word step never changes the margin, the width or the space flag. -/
theorem stepWord_pres (c : Cellbuf) (w : List Char) :
    (stepWord c w).1.lmargin = c.lmargin ∧
    (stepWord c w).1.width = c.width ∧
    (stepWord c w).1.space = c.space := by
  simp only [stepWord]
  split <;> split <;>
    · obtain ⟨-, -, -, h4, h5, h6⟩ := placeChars_spec w _
      exact ⟨by rw [h4], by rw [h5], by rw [h6]⟩

/-- With no pending space, the word step is the separator-free word step. -/
theorem stepWord_eq_noSep (c : Cellbuf) (w : List Char) (h : c.space = false) :
    stepWord c w = stepWordNoSep c w := by
  simp [stepWord, stepWordNoSep, h]


/-- With no pending space, when the word does not fit in the remaining
columns the cursor advances one row and resets to the left margin before
the word is placed: all of its characters land consecutively at columns
`lmargin, lmargin+1, …` on the single row `row + 1`. -/
theorem stepWord_wrap (c : Cellbuf) (w : List Char)
    (hsp : c.space = false)
    (hw : (w.length : Int) > (c.width : Int) - (c.col : Int)) :
    (stepWord c w).2 =
      (List.range' c.lmargin w.length).map (fun x => (x, c.row + 1)) ∧
    (stepWord c w).1.col = c.lmargin + w.length ∧
    (stepWord c w).1.row = c.row + 1 := by
  have hcond : ¬(c.col ≠ c.lmargin ∧ c.space) := by simp [hsp]
  obtain ⟨h1, h2, h3, -, -, -⟩ :=
    placeChars_spec w { c with row := c.row + 1, col := c.lmargin }
  simp only [stepWord, if_neg hcond, if_pos hw]
  exact ⟨h1, by rw [h2], by rw [h3]⟩

/-- The wrap test followed by character placement keeps every written
column strictly below the width, at any state with margin zero and a word
no longer than the width. -/
theorem wrapTestPlace_cols (d : Cellbuf) (w : List Char)
    (hm : d.lmargin = 0) (hl : w.length ≤ d.width) :
    ∀ xy ∈ (placeChars
        (if (w.length : Int) > (d.width : Int) - (d.col : Int) then
          { d with row := d.row + 1, col := d.lmargin }
        else d) w).2, xy.1 < d.width := by
  by_cases hQ : (w.length : Int) > (d.width : Int) - (d.col : Int)
  · simp only [if_pos hQ]
    obtain ⟨h1, -, -, -, -, -⟩ :=
      placeChars_spec w { d with row := d.row + 1, col := d.lmargin }
    rw [h1]
    intro xy hxy
    simp only [List.mem_map, List.mem_range'_1] at hxy
    obtain ⟨x, ⟨hx1, hx2⟩, rfl⟩ := hxy
    simp only at hx1 hx2 ⊢
    omega
  · simp only [if_neg hQ]
    obtain ⟨h1, -, -, -, -, -⟩ := placeChars_spec w d
    rw [h1]
    intro xy hxy
    simp only [List.mem_map, List.mem_range'_1] at hxy
    obtain ⟨x, ⟨hx1, hx2⟩, rfl⟩ := hxy
    push_cast at hQ
    simp only at hx1 hx2 ⊢
    omega

/-- Every character a word step writes lands strictly left of the width
(margin zero, word no longer than the width). -/
theorem stepWord_cols (c : Cellbuf) (w : List Char)
    (hm : c.lmargin = 0) (hl : w.length ≤ c.width) :
    ∀ xy ∈ (stepWord c w).2, xy.1 < c.width := by
  have hw1 : (if c.col ≠ c.lmargin ∧ c.space then { c with col := c.col + 1 } else c).width
      = c.width := by split <;> rfl
  have hm1 : (if c.col ≠ c.lmargin ∧ c.space then { c with col := c.col + 1 } else c).lmargin
      = c.lmargin := by split <;> rfl
  intro xy hxy
  have hx := wrapTestPlace_cols
    (if c.col ≠ c.lmargin ∧ c.space then { c with col := c.col + 1 } else c) w
    (by rw [hm1, hm]) (by rw [hw1]; exact hl) xy
    (by simpa only [stepWord] using hxy)
  rw [hw1] at hx
  exact hx


/-- The word loop never changes the margin, the width or the space flag. -/
theorem appendTextGo_pres :
    ∀ (ws : List (List Char)) (c : Cellbuf),
      (appendTextGo c ws).1.lmargin = c.lmargin ∧
      (appendTextGo c ws).1.width = c.width ∧
      (appendTextGo c ws).1.space = c.space := by
  intro ws
  induction ws with
  | nil => intro c; exact ⟨rfl, rfl, rfl⟩
  | cons w ws ih =>
    intro c
    obtain ⟨i1, i2, i3⟩ := ih (stepWord c w).1
    obtain ⟨s1, s2, s3⟩ := stepWord_pres c w
    simp only [appendTextGo]
    exact ⟨by rw [i1, s1], by rw [i2, s2], by rw [i3, s3]⟩

/-- Every column the word loop writes is strictly below the width
(margin zero, no word longer than the width). -/
theorem appendTextGo_cols :
    ∀ (ws : List (List Char)) (c : Cellbuf),
      c.lmargin = 0 → (∀ w ∈ ws, w.length ≤ c.width) →
      ∀ xy ∈ (appendTextGo c ws).2, xy.1 < c.width := by
  intro ws
  induction ws with
  | nil => intro c _ _ xy hxy; simp [appendTextGo] at hxy
  | cons w ws ih =>
    intro c hm hl xy hxy
    simp only [appendTextGo, List.mem_append] at hxy
    rcases hxy with hxy | hxy
    · exact stepWord_cols c w hm (hl w (by simp)) xy hxy
    · obtain ⟨s1, s2, s3⟩ := stepWord_pres c w
      have := ih (stepWord c w).1 (by rw [s1, hm])
        (fun v hv => by rw [s2]; exact hl v (by simp [hv])) xy hxy
      rwa [s2] at this

/-- With no pending space, the word loop is the separator-free word loop,
and it keeps the space flag clear. -/
theorem appendTextGo_eq_noSep :
    ∀ (ws : List (List Char)) (c : Cellbuf), c.space = false →
      appendTextGo c ws = appendTextGoNoSep c ws := by
  intro ws
  induction ws with
  | nil => intro c _; rfl
  | cons w ws ih =>
    intro c h
    obtain ⟨-, -, s3⟩ := stepWord_pres c w
    simp only [appendTextGo, appendTextGoNoSep, stepWord_eq_noSep c w h]
    rw [ih (stepWordNoSep c w).1 (by rw [← stepWord_eq_noSep c w h, s3, h])]


/-- C5: for a text string none of whose words (maximal runs of
non-whitespace) is longer than the configured width, `AppendText` never
places a character at a grid column outside `[0, width)`: every `SetCell`
call it makes (recorded by the ghost trace) has `0 ≤ column < width`.
Stated under `lmargin = 0`, which holds for every cell buffer this
program constructs (the margin is initialised to 0 and never assigned). -/
theorem appendText_cols_within_width (c : Cellbuf) (s : String)
    (hm : c.lmargin = 0)
    (hl : ∀ w ∈ splitWords s, w.length ≤ c.width) :
    ∀ xy ∈ (appendTextTr c s).2, 0 ≤ xy.1 ∧ xy.1 < c.width := by
  intro xy hxy
  refine ⟨Nat.zero_le _, ?_⟩
  by_cases he : s.isEmpty
  · simp [appendTextTr, he] at hxy
  · have hsnap : ¬(c.col < c.lmargin) := by omega
    simp only [appendTextTr, he, if_neg hsnap, Bool.false_eq_true, if_false] at hxy
    exact appendTextGo_cols (splitWords s) c hm hl xy hxy

/-- Witness for `appendText_cols_within_width` on a ten-column buffer. -/
theorem appendText_cols_within_width_witness :
    buf10.lmargin = 0 ∧
    (∀ w ∈ splitWords "hello world wr ap", w.length ≤ buf10.width) ∧
    (∀ xy ∈ (appendTextTr buf10 "hello world wr ap").2, 0 ≤ xy.1 ∧ xy.1 < buf10.width) :=
  ⟨rfl, by decide,
    appendText_cols_within_width buf10 "hello world wr ap" rfl (by decide)⟩

/-- C6: in `AppendText`, when the (single) word of the appended string is
longer than the columns remaining before the configured width, the cursor
advances one row and the column resets to the left margin before the word
is placed: every character lands on the single row `row + 1`, at the
consecutive columns `lmargin, lmargin + 1, …` — in particular a word
longer than the full width is placed at the margin on its own row,
character by character, not split across rows.  Stated with the pending
space flag clear, as it is everywhere in this program. -/
theorem appendText_wrap_before_placing (c : Cellbuf) (s : String) (w : List Char)
    (hsp : c.space = false) (hm : c.lmargin ≤ c.col)
    (hs : splitWords s = [w])
    (hw : (w.length : Int) > (c.width : Int) - (c.col : Int)) :
    (appendTextTr c s).2 =
      (List.range' c.lmargin w.length).map (fun x => (x, c.row + 1)) ∧
    (appendTextTr c s).1.col = c.lmargin + w.length ∧
    (appendTextTr c s).1.row = c.row + 1 := by
  have he : ¬s.isEmpty = true := by
    intro h
    have : s = "" := (String.isEmpty_iff s).mp h
    rw [this] at hs
    simp [splitWords, splitWordsAux] at hs
  have hsnap : ¬(c.col < c.lmargin) := by omega
  obtain ⟨h1, h2, h3⟩ := stepWord_wrap c w hsp hw
  simp only [appendTextTr, he, if_neg hsnap, Bool.false_eq_true, if_false, hs,
    appendTextGo, List.append_nil]
  exact ⟨h1, h2, h3⟩

/-- Witness for `appendText_wrap_before_placing`: width 10, word length
15; the word is placed at columns 0–14 of row 1. -/
theorem appendText_wrap_before_placing_witness :
    buf10.space = false ∧ buf10.lmargin ≤ buf10.col ∧
    splitWords "abcdefghijklmno" = [word15] ∧
    ((word15.length : Int) > (buf10.width : Int) - (buf10.col : Int)) ∧
    ((appendTextTr buf10 "abcdefghijklmno").2 =
      (List.range' buf10.lmargin word15.length).map (fun x => (x, buf10.row + 1)) ∧
     (appendTextTr buf10 "abcdefghijklmno").1.col = buf10.lmargin + word15.length ∧
     (appendTextTr buf10 "abcdefghijklmno").1.row = buf10.row + 1) :=
  ⟨rfl, by decide, by decide, by decide,
    appendText_wrap_before_placing buf10 "abcdefghijklmno" word15 rfl (by decide)
      (by decide) (by decide)⟩


/-- With no pending space, `AppendText` is the separator-free
`AppendText`. -/
theorem appendTextTr_eq_noSep (c : Cellbuf) (s : String) (h : c.space = false) :
    appendTextTr c s = appendTextTrNoSep c s := by
  simp only [appendTextTr, appendTextTrNoSep]
  by_cases he : s.isEmpty
  · simp [he]
  · have hc1 : (if c.col < c.lmargin then { c with col := c.lmargin } else c).space = false := by
      split <;> exact h
    simp only [he, Bool.false_eq_true, if_false]
    exact appendTextGo_eq_noSep (splitWords s)
      (if c.col < c.lmargin then { c with col := c.lmargin } else c) hc1

/-- `AppendText` never changes the space flag. -/
theorem appendText_space (c : Cellbuf) (s : String) :
    (Cellbuf.appendText c s).space = c.space := by
  simp only [Cellbuf.appendText, appendTextTr]
  by_cases he : s.isEmpty
  · simp [he]
  · have hc1 : (if c.col < c.lmargin then { c with col := c.lmargin } else c).space = c.space := by
      split <;> rfl
    obtain ⟨-, -, h3⟩ := appendTextGo_pres (splitWords s)
      (if c.col < c.lmargin then { c with col := c.lmargin } else c)
    simp only [he, Bool.false_eq_true, if_false]
    rw [h3, hc1]

/-- `HandleText` never changes the space flag. -/
theorem handleText_space (p : Parser) (d : String) :
    (handleText p d).doc.space = p.doc.space := by
  simp only [handleText]
  split
  · rfl
  · exact appendText_space (p.doc.style p.tagStack) d

/-- The image-attribute loop step never changes the space flag. -/
theorem imgAttrStep_space (p : Parser) (a : TagAttr) :
    (imgAttrStep p a).doc.space = p.doc.space := by
  simp only [imgAttrStep]
  split
  · exact appendText_space p.doc _
  · rfl
  · rfl

/-- The image-attribute loop never changes the space flag. -/
theorem imgFold_space :
    ∀ (attrs : List TagAttr) (p : Parser),
      (List.foldl imgAttrStep p attrs).doc.space = p.doc.space := by
  intro attrs
  induction attrs with
  | nil => intro p; rfl
  | cons a attrs ih =>
    intro p
    rw [List.foldl_cons, ih (imgAttrStep p a), imgAttrStep_space]

/-- `HandleStartTag` never changes the space flag. -/
theorem handleStartTag_space (p : Parser) (a : Atom) (attrs : List TagAttr) :
    (handleStartTag p a attrs).doc.space = p.doc.space := by
  cases a <;> simp only [handleStartTag]
  case img => exact imgFold_space attrs p
  case hr => exact appendText_space { p.doc with row := p.doc.row + 1, col := 0 } _

/-- The space flag, once clear, stays clear through the whole walk. -/
theorem parseLoop_space :
    ∀ (ts : List Tok) (p : Parser), p.doc.space = false →
      ((parseLoop p ts).2).doc.space = false := by
  intro ts
  induction ts with
  | nil => intro p h; exact h
  | cons t ts ih =>
    intro p h
    cases t with
    | error e =>
      simp only [parseLoop]
      split <;> exact h
    | startTag a attrs =>
      exact ih _ (by rw [handleStartTag_space]; exact h)
    | selfClosing a attrs =>
      exact ih _ (by rw [handleStartTag_space]; exact h)
    | text d =>
      exact ih _ (by rw [handleText_space]; exact h)
    | endTag a =>
      simp only [parseLoop]
      split
      · exact h
      · exact ih _ h


/-- C2 amended: the pending-space column advance is dead code — the
`space` flag starts false (Go zero value), nothing in the program ever
sets it, and with the flag clear `AppendText` behaves exactly like the
separator-free `AppendText`: a word placed after a previous word on the
same line starts at the column where the previous word ended, with no
one-column advance for a space. -/
theorem appendText_no_separator_advance :
    (∀ (c : Cellbuf) (s : String), c.space = false →
      appendTextTr c s = appendTextTrNoSep c s) ∧
    (∀ (p : Parser) (ts : List Tok), p.doc.space = false →
      ((parseLoop p ts).2).doc.space = false) ∧
    initCellbuf.space = false :=
  ⟨appendTextTr_eq_noSep, fun p ts => parseLoop_space ts p, rfl⟩

/-- C2 counterexample: appending `"ab cd"` to the buffer `ParseText`
constructs places the four characters at columns 0, 1, 2, 3 of row 0 —
the second word starts at column 2, immediately after the first word,
with no one-column advance for a space separator (the claim would place
it at columns 3–4). -/
theorem appendText_separator_counterexample :
    (appendTextTr initCellbuf "ab cd").2 = [(0, 0), (1, 0), (2, 0), (3, 0)] := rfl

/-- Witness for `appendText_no_separator_advance` at concrete inputs. -/
theorem appendText_no_separator_advance_witness :
    initCellbuf.space = false ∧
    appendTextTr initCellbuf "ab cd" = appendTextTrNoSep initCellbuf "ab cd" ∧
    ((parseLoop (initParser [] "") helloTokens).2).doc.space = false :=
  ⟨rfl, appendText_no_separator_advance.1 initCellbuf "ab cd" rfl,
    appendText_no_separator_advance.2.1 (initParser [] "") helloTokens rfl⟩


/-- The image-attribute loop touches neither the string builder nor the
tag stack. -/
theorem imgFold_sb_stack :
    ∀ (attrs : List TagAttr) (p : Parser),
      (List.foldl imgAttrStep p attrs).sb = p.sb ∧
      (List.foldl imgAttrStep p attrs).tagStack = p.tagStack := by
  intro attrs
  induction attrs with
  | nil => intro p; exact ⟨rfl, rfl⟩
  | cons a attrs ih =>
    intro p
    obtain ⟨i1, i2⟩ := ih (imgAttrStep p a)
    have hstep : (imgAttrStep p a).sb = p.sb ∧ (imgAttrStep p a).tagStack = p.tagStack := by
      simp only [imgAttrStep]
      split <;> exact ⟨rfl, rfl⟩
    rw [List.foldl_cons]
    exact ⟨by rw [i1, hstep.1], by rw [i2, hstep.2]⟩

/-- `HandleStartTag` touches neither the string builder nor the tag
stack: only Text-token handling appends to the flat output. -/
theorem handleStartTag_sb_stack (p : Parser) (a : Atom) (attrs : List TagAttr) :
    (handleStartTag p a attrs).sb = p.sb ∧
    (handleStartTag p a attrs).tagStack = p.tagStack := by
  cases a <;> simp only [handleStartTag]
  case img => exact imgFold_sb_stack attrs p
  all_goals simp

/-- `HandleText` leaves the tag stack unchanged and appends exactly the
displayable text to the string builder. -/
theorem handleText_sb_stack (p : Parser) (d : String) :
    (handleText p d).sb =
      p.sb ++ (if 0 < p.tagStack.length ∧ p.tagStack.getLast? = some Atom.style then "" else d) ∧
    (handleText p d).tagStack = p.tagStack := by
  simp only [handleText]
  split
  · exact ⟨(String.append_empty p.sb).symm, rfl⟩
  · exact ⟨rfl, rfl⟩

/-- The accumulated text of a walk is the initial string builder followed
by the verbatim concatenation of the displayable Text tokens — the walk
never derives it from the layout surface. -/
theorem parseLoop_sb :
    ∀ (ts : List Tok) (p : Parser),
      ((parseLoop p ts).2).sb = p.sb ++ displayedTextConcat p.tagStack ts := by
  intro ts
  induction ts with
  | nil => intro p; exact (String.append_empty p.sb).symm
  | cons t ts ih =>
    intro p
    cases t with
    | error e =>
      simp only [parseLoop, displayedTextConcat]
      split <;> exact (String.append_empty p.sb).symm
    | startTag a attrs =>
      simp only [parseLoop, displayedTextConcat]
      rw [ih, (handleStartTag_sb_stack _ a attrs).1, (handleStartTag_sb_stack _ a attrs).2]
    | selfClosing a attrs =>
      simp only [parseLoop, displayedTextConcat]
      rw [ih, (handleStartTag_sb_stack p a attrs).1, (handleStartTag_sb_stack p a attrs).2]
    | text d =>
      simp only [parseLoop, displayedTextConcat]
      rw [ih, (handleText_sb_stack p d).1, (handleText_sb_stack p d).2,
        String.append_assoc]
    | endTag a =>
      simp only [parseLoop, displayedTextConcat]
      split
      · exact (String.append_empty p.sb).symm
      · exact ih _


/-- C3: the Accumulated Text Output of a walk equals the verbatim
concatenation of the displayable Text tokens' raw content, appended to
the initial string builder — a function of the tokens and the element
stack alone, independent of all Layout Surface state; in particular, for
the token stream of `<p>Hello world</p>` the walk succeeds and the output
is exactly `"Hello world"`. -/
theorem parse_sb_is_verbatim_text_concat :
    (∀ (p : Parser) (ts : List Tok),
      ((parseLoop p ts).2).sb = p.sb ++ displayedTextConcat p.tagStack ts) ∧
    (parseLoop (initParser [] "") helloTokens).1 = Outcome.ok ∧
    ((parseLoop (initParser [] "") helloTokens).2).sb = "Hello world" :=
  ⟨fun p ts => parseLoop_sb ts p, rfl, rfl⟩

/-- C10: an image element with an `alt` attribute of value `v` sends the
literal string `"Alt text: v"` to the Layout Surface (word-wrapped via
`AppendText`), followed by a row advance and a column reset to the left
margin, leaving everything else — tag stack, items, and in particular the
Accumulated Text Output — unchanged; `HandleStartTag` never appends to
the flat output for any element, and across a whole walk the flat output
consists of Text-token content only, so image handling never contributes
an "Alt text:" substitution to the returned text. -/
theorem handleStartTag_alt_text_layout_only :
    (∀ (p : Parser) (a : Atom) (attrs : List TagAttr),
      (handleStartTag p a attrs).sb = p.sb) ∧
    (∀ (p : Parser) (v : String),
      handleStartTag p Atom.img [{ key := "alt", val := v }] =
        { p with doc :=
          { Cellbuf.appendText p.doc ("Alt text: " ++ v) with
            row := (Cellbuf.appendText p.doc ("Alt text: " ++ v)).row + 1,
            col := (Cellbuf.appendText p.doc ("Alt text: " ++ v)).lmargin } }) ∧
    (∀ (p : Parser) (ts : List Tok),
      ((parseLoop p ts).2).sb = p.sb ++ displayedTextConcat p.tagStack ts) :=
  ⟨fun p a attrs => (handleStartTag_sb_stack p a attrs).1,
   fun _ _ => rfl,
   fun p ts => parseLoop_sb ts p⟩

end EpubParse
